import Mathlib

/-!
Verification of the duplicate-image detection engine
(`scripts/duplicate_checker.py`).

The engine is embedded shallowly:

* a file path is a list of path components (`FilePath`);
* file contents are abstract (`Content := Nat`); the filesystem passed to
  the scanning phase is a partial map `FilePath → Option Content`, where
  `none` models a read failure (Python `IOError`);
* the cryptographic digest (`sha256`), the perceptual fingerprint
  (`phash`, partial: decode failures yield `none`) and the Hamming
  distance between fingerprints are parameters, bundled in `HashModel`;
* Python `dict`s (insertion ordered) become association lists with
  insertion-ordered operations (`dictLookup`, `dictInsert`, `ddAppend`);
* the filesystem acted on by the backup mover is the list of existing
  file paths; `shutil.move` erases the source and appends the destination.
-/

/-- A filesystem path, as its list of components. -/
abbrev FilePath := List String

/-- Abstract file byte-content. -/
abbrev Content := Nat

/-- The hash functions the checker is parameterised by: `sha` models
`hashlib.sha256(...).hexdigest()`, `phash` models
`imagehash.phash(Image.open(...))` (with `none` for any decode failure,
as `calculate_phash` catches every exception), and `hamming` models the
`-` operator on `imagehash` values. -/
structure HashModel where
  sha : Content → String
  phash : Content → Option String
  hamming : String → String → Nat

/-- First value bound to key `k` in an insertion-ordered Python dict. -/
def dictLookup (d : List (String × α)) (k : String) : Option α :=
  match d with
  | [] => none
  | (k', v) :: rest => if k' = k then some v else dictLookup rest k

/-- Python `k in d`. -/
def dictContains (d : List (String × α)) (k : String) : Bool :=
  (dictLookup d k).isSome

/-- Python `d[k] = v`: overwrite in place if the key exists, else append
(dicts preserve insertion order). -/
def dictInsert (d : List (String × α)) (k : String) (v : α) : List (String × α) :=
  match d with
  | [] => [(k, v)]
  | (k', v') :: rest =>
    if k' = k then (k, v) :: rest else (k', v') :: dictInsert rest k v

/-- Python `defaultdict(list)`: `d[k].append(x)`. -/
def ddAppend (d : List (String × List β)) (k : String) (x : β) :
    List (String × List β) :=
  match d with
  | [] => [(k, [x])]
  | (k', xs) :: rest =>
    if k' = k then (k', xs ++ [x]) :: rest else (k', xs) :: ddAppend rest k x

/-- The keys of a dict, in insertion order. -/
def dictKeys (d : List (String × α)) : List String := d.map (·.1)

/-- The values of a dict, in insertion order. -/
def dictValues (d : List (String × α)) : List α := d.map (·.2)

/-- All elements of the list values of a dict-of-lists. -/
def ddElems (d : List (String × List β)) : List β := (d.map (·.2)).flatten

/-- The mutable state accumulated by `DuplicateChecker.check_duplicates`:
`exact_duplicates` and `similar_duplicates` are `defaultdict(list)`,
`sha256_map` and `phash_map` are plain dicts. -/
structure DCState where
  exact_duplicates : List (String × List FilePath)
  similar_duplicates : List (String × List FilePath)
  sha256_map : List (String × FilePath)
  phash_map : List (String × FilePath)
deriving DecidableEq, Repr

/-- The state right after `__init__`: all four containers empty. -/
def DCState.empty : DCState := ⟨[], [], [], []⟩

/-- `calculate_sha256`: reads the file's bytes and digests them; a read
failure (`IOError`) is NOT caught and propagates to the caller. -/
def calculate_sha256 (m : HashModel) (fs : FilePath → Option Content)
    (p : FilePath) : Option String :=
  (fs p).map m.sha

/-- `calculate_phash`: opens the file as an image and fingerprints it;
every exception (read or decode failure) is caught and turns into `None`. -/
def calculate_phash (m : HashModel) (fs : FilePath → Option Content)
    (p : FilePath) : Option String :=
  (fs p).bind m.phash

/-- The loop `for existing_phash in self.phash_map.keys(): ...` — the
first key of `phash_map`, in insertion order, whose Hamming distance to
`ph` is at most the threshold `t`. -/
def findFirstMatch (ham : String → String → Nat) (t : Nat) (ph : String) :
    List (String × FilePath) → Option String
  | [] => none
  | (k, _) :: rest =>
    if ham ph k ≤ t then some k else findFirstMatch ham t ph rest

/-- Lines 81–85 of `check_duplicates`: the SHA-256 phase for one file of
content `c`. -/
def shaStep (m : HashModel) (st : DCState) (p : FilePath) (c : Content) :
    DCState :=
  let sha := m.sha c
  if dictContains st.sha256_map sha then
    { st with exact_duplicates := ddAppend st.exact_duplicates sha p }
  else
    { st with sha256_map := dictInsert st.sha256_map sha p }

/-- Lines 87–101 of `check_duplicates`: the perceptual-hash phase for one
file of content `c` (runs for every file, whether or not the SHA-256
phase classified it as an exact duplicate). -/
def phashStep (m : HashModel) (t : Nat) (st : DCState) (p : FilePath)
    (c : Content) : DCState :=
  match m.phash c with
  | none => st
  | some ph =>
    match findFirstMatch m.hamming t ph st.phash_map with
    | some key =>
      { st with similar_duplicates := ddAppend st.similar_duplicates key p }
    | none =>
      { st with phash_map := dictInsert st.phash_map ph p }

/-- One iteration of the `for idx, file_path in enumerate(image_files, 1)`
loop: `none` when `calculate_sha256` raises `IOError` (which aborts the
whole loop, since nothing catches it). -/
def processFile (m : HashModel) (t : Nat) (fs : FilePath → Option Content)
    (st : DCState) (p : FilePath) : Option DCState :=
  match fs p with
  | none => none
  | some c => some (phashStep m t (shaStep m st p c) p c)

/-- `DuplicateChecker.check_duplicates` over a list of files; `none`
models the run dying on an uncaught `IOError`. -/
def check_duplicates (m : HashModel) (t : Nat)
    (fs : FilePath → Option Content) :
    DCState → List FilePath → Option DCState
  | st, [] => some st
  | st, p :: rest =>
    match processFile m t fs st p with
    | none => none
    | some st' => check_duplicates m t fs st' rest

/-! ### Image discovery (`find_all_images`) -/

/-- The final component of a path (`Path.name`). -/
def filename (p : FilePath) : String := p.getLastD ""

/-- `base` is an initial segment of `p` (so `p` lies under directory
`base`). -/
def isUnder (base p : FilePath) : Bool :=
  match base, p with
  | [], _ => true
  | _ :: _, [] => false
  | b :: bs, x :: xs => b = x && isUnder bs xs

/-- `s.endsWith suf`, on the underlying character lists. -/
def strEndsWith (s suf : String) : Bool :=
  suf.data.isSuffixOf s.data

/-- `s.startswith(pre)`, on the underlying character lists. -/
def strStartsWith (s pre : String) : Bool :=
  pre.data.isPrefixOf s.data

/-- `folder_path.rglob(f"*{ext}")` over a filesystem whose files are
`allFiles`: every file under `folder` whose name ends with `ext`
(pathlib's `*` also matches names that start with a dot, so the macOS
`._` artifacts match too). Results keep the enumeration order of
`allFiles`. -/
def rglobModel (allFiles : List FilePath) (folder : FilePath)
    (ext : String) : List FilePath :=
  allFiles.filter (fun p => isUnder folder p && strEndsWith (filename p) ext)

/-- `DuplicateChecker.find_all_images`: for each source folder, skip it
(with a warning) if it does not exist, otherwise extend the accumulated
list with the `rglob` matches of each configured extension. -/
def find_all_images (dirExists : FilePath → Bool)
    (rglob : FilePath → String → List FilePath)
    (folders : List FilePath) (exts : List String) : List FilePath :=
  folders.foldl
    (fun acc folder =>
      if dirExists folder then
        exts.foldl (fun acc2 ext => acc2 ++ rglob folder ext) acc
      else acc)
    []

/-! ### Configuration and checker construction (`__init__`) -/

/-- The configuration JSON fields the checker reads.
`perceptual_hash_threshold` is `none` when the key is absent
(`self.config.get('perceptual_hash_threshold', 10)`). -/
structure Config where
  source_folders : List FilePath
  backup_dir : FilePath
  output_dir : FilePath
  image_extensions : List String
  perceptual_hash_threshold : Option Nat

/-- The fields of a constructed `DuplicateChecker` (the four result
containers start empty and live in `DCState`). -/
structure DuplicateChecker where
  source_folders : List FilePath
  backup_dir : FilePath
  output_dir : FilePath
  extensions : List String
  phash_threshold : Nat

/-- `DuplicateChecker.__init__`: copy the configuration fields and
default the perceptual-hash threshold to `10` when the key is absent. -/
def DuplicateChecker.init (cfg : Config) : DuplicateChecker :=
  { source_folders := cfg.source_folders
    backup_dir := cfg.backup_dir
    output_dir := cfg.output_dir
    extensions := cfg.image_extensions
    phash_threshold := cfg.perceptual_hash_threshold.getD 10 }

/-- `self.check_duplicates(image_files)`: the scan runs with the
checker's own threshold. -/
def checkerCheck (ck : DuplicateChecker) (m : HashModel)
    (fs : FilePath → Option Content) (st : DCState)
    (files : List FilePath) : Option DCState :=
  check_duplicates m ck.phash_threshold fs st files

/-- The part of `DuplicateChecker.run` that feeds discovery into the
scan: `image_files = self.find_all_images()` is handed to
`self.check_duplicates(image_files)` as is, with no reordering. -/
def runScan (ck : DuplicateChecker) (dirExists : FilePath → Bool)
    (rglob : FilePath → String → List FilePath) (m : HashModel)
    (fs : FilePath → Option Content) : Option DCState :=
  checkerCheck ck m fs DCState.empty
    (find_all_images dirExists rglob ck.source_folders ck.extensions)

/-! ### Backup mover (`backup_and_remove_duplicates`)

The filesystem being mutated is the list of existing file paths;
`shutil.move(src, dest)` erases `src` and appends `dest`. -/

/-- `Path.parent`. -/
def parent (p : FilePath) : FilePath := p.dropLast

/-- `p.relative_to(base)`: the remaining components when `base` is an
initial segment of `p`, otherwise `none` (Python raises `ValueError`,
which nothing in the mover catches). -/
def relative_to (p base : FilePath) : Option FilePath :=
  match base, p with
  | [], rest => some rest
  | _ :: _, [] => none
  | b :: bs, x :: xs => if x = b then relative_to xs bs else none

/-- Lines 119–120: the destination of one duplicate —
`backup_subdir / source.relative_to(Path(self.source_folders[0]).parent)`.
`none` models the run dying there: an `IndexError` on
`source_folders[0]` when the root list is empty, or the `ValueError`
`relative_to` raises when the duplicate is not under that parent. -/
def moveDest (folders : List FilePath) (subdir : FilePath) (d : FilePath) :
    Option FilePath :=
  match folders with
  | [] => none
  | r0 :: _ => (relative_to d (parent r0)).map (fun rel => subdir ++ rel)

/-- The inner loop `for dup_file in duplicate_files`: skip paths that no
longer exist; move an existing path to its computed destination
(`shutil.move`). Returns the performed `(source, destination)` moves in
order and the final filesystem, or `none` when the run dies. -/
def backupDups (folders : List FilePath) (subdir : FilePath) :
    List FilePath → List FilePath →
    Option (List (FilePath × FilePath) × List FilePath)
  | [], fs => some ([], fs)
  | d :: rest, fs =>
    if d ∈ fs then
      match moveDest folders subdir d with
      | none => none
      | some dest =>
        match backupDups folders subdir rest ((fs.erase d) ++ [dest]) with
        | none => none
        | some (mvs, fs') => some ((d, dest) :: mvs, fs')
    else backupDups folders subdir rest fs

/-- The outer loop `for sha256, duplicate_files in self.exact_duplicates.items()`. -/
def backupGroups (folders : List FilePath) (subdir : FilePath) :
    List (String × List FilePath) → List FilePath →
    Option (List (FilePath × FilePath) × List FilePath)
  | [], fs => some ([], fs)
  | (_, dups) :: rest, fs =>
    match backupDups folders subdir dups fs with
    | none => none
    | some (mvs, fs') =>
      match backupGroups folders subdir rest fs' with
      | none => none
      | some (mvs', fs'') => some (mvs ++ mvs', fs'')

/-- `DuplicateChecker.backup_and_remove_duplicates`: one timestamped
quarantine subdirectory per run; `moved_count` is the length of the move
list of the result. -/
def backup_and_remove_duplicates (folders : List FilePath)
    (backupDir : FilePath) (timestamp : String)
    (groups : List (String × List FilePath)) (fs : List FilePath) :
    Option (List (FilePath × FilePath) × List FilePath) :=
  backupGroups folders (backupDir ++ ["duplicates_" ++ timestamp]) groups fs

/-! ### Report generator (`generate_report`) -/

/-- One group of the report: digest (or fingerprint), `original`, and the
`duplicates` (or `similar_images`) list. -/
structure ReportGroup where
  key : String
  original : FilePath
  members : List FilePath
deriving DecidableEq, Repr

/-- The report document (`duplicate_report.json`). -/
structure Report where
  timestamp : String
  total_images_scanned : Nat
  exact_duplicates_count : Nat
  similar_duplicates_count : Nat
  exact_duplicates : List ReportGroup
  similar_duplicates : List ReportGroup
deriving DecidableEq, Repr

/-- `self.sha256_map.get(sha256, "Unknown")` / `self.phash_map.get(...)`. -/
def unknownPath : FilePath := ["Unknown"]

/-- Sum of the lengths of the value lists of a dict-of-lists
(`sum(len(v) for v in d.values())`). -/
def sumLens (d : List (String × List FilePath)) : Nat :=
  (d.map (fun kv => kv.2.length)).sum

/-- `DuplicateChecker.generate_report` on the final scan state. -/
def generate_report (st : DCState) (ts : String) : Report :=
  { timestamp := ts
    total_images_scanned := st.sha256_map.length + sumLens st.exact_duplicates
    exact_duplicates_count := sumLens st.exact_duplicates
    similar_duplicates_count := sumLens st.similar_duplicates
    exact_duplicates := st.exact_duplicates.map
      (fun kv => ⟨kv.1, (dictLookup st.sha256_map kv.1).getD unknownPath, kv.2⟩)
    similar_duplicates := st.similar_duplicates.map
      (fun kv => ⟨kv.1, (dictLookup st.phash_map kv.1).getD unknownPath, kv.2⟩) }

/-! ### Derived path collections of a scan state -/

/-- The canonical paths of the exact-duplicate side: the values of
`sha256_map`. -/
def shaCanonicals (st : DCState) : List FilePath := dictValues st.sha256_map

/-- Every path recorded in some digest's duplicate list. -/
def dupPaths (st : DCState) : List FilePath := ddElems st.exact_duplicates

/-- The canonical paths of the perceptual side: the values of
`phash_map` (the originals of the similarity groups). -/
def phashCanonicals (st : DCState) : List FilePath := dictValues st.phash_map

/-- Every path recorded in some similarity group's member list. -/
def similarMembers (st : DCState) : List FilePath := ddElems st.similar_duplicates

/-! ### The common ancestor of the source roots, as the spec words it

The spec's backup-mover contract computes each duplicate's path
"relative to the common ancestor of all configured source roots". This
definition follows the spec's words (longest shared leading run of
components of all roots), to be compared with what the code does
(`Path(self.source_folders[0]).parent`). -/

/-- Longest shared leading run of components of two paths. -/
def sharedStart (a b : FilePath) : FilePath :=
  match a, b with
  | x :: xs, y :: ys => if x = y then x :: sharedStart xs ys else []
  | _, _ => []

/-- Spec §4.5: the common ancestor of all configured source roots. -/
def commonAncestor (roots : List FilePath) : FilePath :=
  match roots with
  | [] => []
  | r :: rest => rest.foldl sharedStart r

/-! ### Concrete fixtures used by the counterexamples and witnesses -/

def pA : FilePath := ["root", "a.jpg"]
def pB : FilePath := ["root", "b.jpg"]
def pC : FilePath := ["root", "c.jpg"]
def pBad : FilePath := ["root", "bad.jpg"]

/-- A concrete Hamming distance: `"1"` and `"2"` are 3 apart, `"1"` and
`"3"` are 4 apart, `"2"` and `"3"` are 20 apart (so with threshold 10
the pairs (1,2) and (1,3) are similar but (2,3) is not). -/
def hamTest (x y : String) : Nat :=
  if x = y then 0
  else if (x = "1" ∧ y = "2") ∨ (x = "2" ∧ y = "1") then 3
  else if (x = "1" ∧ y = "3") ∨ (x = "3" ∧ y = "1") then 4
  else if (x = "2" ∧ y = "3") ∨ (x = "3" ∧ y = "2") then 20
  else 100

/-- A concrete hash model: the digest and the fingerprint of a content
are both its decimal string (so byte-identical files share both). -/
def mTest : HashModel :=
  { sha := fun c => toString c
    phash := fun c => some (toString c)
    hamming := hamTest }

/-- Two byte-identical files `pA`, `pB`. -/
def fsSame : FilePath → Option Content :=
  fun p => if p = pA then some 1 else if p = pB then some 1 else none

/-- Three pairwise byte-distinct files. -/
def fsTest : FilePath → Option Content :=
  fun p => if p = pA then some 1 else if p = pB then some 2
    else if p = pC then some 3 else none

/-- `pBad` is unreadable (its read raises `IOError`); `pA` is fine. -/
def fsBad : FilePath → Option Content :=
  fun p => if p = pBad then none else if p = pA then some 1 else none

/-- The state `check_duplicates mTest 10 fsSame` reaches on `[pA, pB]`. -/
def stC1 : DCState :=
  ⟨[("1", [pB])], [("1", [pB])], [("1", pA)], [("1", pA)]⟩

/-- The state `check_duplicates mTest 10 fsTest` reaches on `[pA, pC]`. -/
def stC3 : DCState :=
  ⟨[], [("1", [pC])], [("1", pA), ("3", pC)], [("1", pA)]⟩

/-- A mid-scan state with one similarity group keyed `"1"`. -/
def stW : DCState := ⟨[], [], [("1", pA)], [("1", pA)]⟩

def cfgTest : Config :=
  { source_folders := [["root"]]
    backup_dir := ["bk"]
    output_dir := ["out"]
    image_extensions := [".jpg"]
    perceptual_hash_threshold := none }

def ckTest : DuplicateChecker := DuplicateChecker.init cfgTest

def dirExistsTest : FilePath → Bool := fun f => f == ["root"]

/-- One filesystem enumeration order of the three test files. -/
def afOrd1 : List FilePath := [pA, pB, pC]

/-- The same set of files in a different enumeration order. -/
def afOrd2 : List FilePath := [pB, pA, pC]

/-- A filesystem holding one macOS resource-fork artifact. -/
def afDot : List FilePath := [["root", "._x.jpg"]]

/-- Source roots whose common ancestor (`["r"]`) differs from the parent
of the first root (`["r", "x"]`). -/
def rootsTest : List FilePath := [["r", "x", "s1"], ["r", "s2"]]

/-- A duplicate file under the first test root. -/
def dupF : FilePath := ["r", "x", "s1", "f.jpg"]

/-! ### Scan invariants

One "side" of the scan state is a `defaultdict` of groups plus a dict of
canonical entries (exact side: `exact_duplicates`/`sha256_map`;
perceptual side: `similar_duplicates`/`phash_map`). -/

/-- Invariant of one side after processing the paths in `processed`:
canonicals never sit in a group member list, every recorded path was
processed, and every group key has a canonical entry. -/
def sideInv (processed : List FilePath)
    (groups : List (String × List FilePath))
    (canon : List (String × FilePath)) : Prop :=
  (∀ q ∈ dictValues canon, q ∉ ddElems groups)
  ∧ (∀ q ∈ dictValues canon, q ∈ processed)
  ∧ (∀ q ∈ ddElems groups, q ∈ processed)
  ∧ (∀ k ∈ dictKeys groups, dictContains canon k = true)

/-- The invariant behind C3: both sides of the scan state are sound. -/
def reportInv (processed : List FilePath) (st : DCState) : Prop :=
  sideInv processed st.exact_duplicates st.sha256_map
  ∧ sideInv processed st.similar_duplicates st.phash_map

/-- Every canonical entry of `sm` records a readable content whose
digest is its key and whose fingerprint (when it computes) is within
threshold of some existing group key of `pm`. -/
def keyCoverage (m : HashModel) (t : Nat) (fs : FilePath → Option Content)
    (sm pm : List (String × FilePath)) : Prop :=
  ∀ kv ∈ sm, ∃ c, fs kv.2 = some c ∧ m.sha c = kv.1
    ∧ ∀ ph, m.phash c = some ph → ∃ k ∈ dictKeys pm, m.hamming ph k ≤ t

/-- The invariant behind C1: exact-duplicate paths are never similarity
group keys, and (when their fingerprint computes) they sit in some
similarity group's member list. -/
def noNewKeyInv (m : HashModel) (t : Nat) (fs : FilePath → Option Content)
    (processed : List FilePath) (st : DCState) : Prop :=
  keyCoverage m t fs st.sha256_map st.phash_map
  ∧ (∀ q ∈ dictValues st.phash_map, q ∉ ddElems st.exact_duplicates)
  ∧ (∀ q ∈ ddElems st.exact_duplicates, q ∈ processed)
  ∧ (∀ q ∈ dictValues st.phash_map, q ∈ processed)
  ∧ (∀ q ∈ ddElems st.exact_duplicates,
      ∀ c ph, fs q = some c → m.phash c = some ph →
        q ∈ ddElems st.similar_duplicates)

/-! ## Helper lemmas on the dict operations -/

theorem ddAppend_cons_self {rest : List (String × List β)} {k : String}
    {xs : List β} {x : β} :
    ddAppend ((k, xs) :: rest) k x = (k, xs ++ [x]) :: rest := by
  simp [ddAppend]

theorem ddAppend_cons_ne {rest : List (String × List β)} {k0 k : String}
    {xs : List β} {x : β} (h : k0 ≠ k) :
    ddAppend ((k0, xs) :: rest) k x = (k0, xs) :: ddAppend rest k x := by
  simp [ddAppend, h]

theorem dictInsert_cons_self {rest : List (String × α)} {k : String}
    {v0 v : α} : dictInsert ((k, v0) :: rest) k v = (k, v) :: rest := by
  simp [dictInsert]

theorem dictInsert_cons_ne {rest : List (String × α)} {k0 k : String}
    {v0 v : α} (h : k0 ≠ k) :
    dictInsert ((k0, v0) :: rest) k v = (k0, v0) :: dictInsert rest k v := by
  simp [dictInsert, h]

theorem ddElems_cons {rest : List (String × List β)} {k : String}
    {xs : List β} : ddElems ((k, xs) :: rest) = xs ++ ddElems rest := by
  simp [ddElems]

theorem dictKeys_cons {rest : List (String × α)} {k : String} {v : α} :
    dictKeys ((k, v) :: rest) = k :: dictKeys rest := by
  simp [dictKeys]

theorem dictValues_cons {rest : List (String × α)} {k : String} {v : α} :
    dictValues ((k, v) :: rest) = v :: dictValues rest := by
  simp [dictValues]

theorem dictKeys_mem_iff {d : List (String × α)} {k : String} :
    k ∈ dictKeys d ↔ ∃ v, (k, v) ∈ d := by
  simp only [dictKeys, List.mem_map]
  constructor
  · rintro ⟨⟨k', v⟩, hmem, rfl⟩
    exact ⟨v, hmem⟩
  · rintro ⟨v, hmem⟩
    exact ⟨(k, v), hmem, rfl⟩

theorem dictContains_iff {d : List (String × α)} {k : String} :
    dictContains d k = true ↔ k ∈ dictKeys d := by
  induction d with
  | nil => simp [dictContains, dictLookup, dictKeys]
  | cons kv rest ih =>
    obtain ⟨k', v'⟩ := kv
    by_cases h : k' = k
    · subst h
      simp [dictContains, dictLookup, dictKeys]
    · simp only [dictContains, dictLookup, if_neg h, dictKeys_cons,
        List.mem_cons] at *
      rw [ih]
      constructor
      · exact Or.inr
      · rintro (h' | h')
        · exact absurd h'.symm h
        · exact h'

theorem dictInsert_of_not_contains {d : List (String × α)} {k : String}
    (h : dictContains d k = false) (v : α) :
    dictInsert d k v = d ++ [(k, v)] := by
  induction d with
  | nil => simp [dictInsert]
  | cons kv rest ih =>
    obtain ⟨k', v'⟩ := kv
    by_cases hk : k' = k
    · subst hk
      simp [dictContains, dictLookup] at h
    · simp only [dictContains, dictLookup, if_neg hk] at h
      rw [dictInsert_cons_ne hk, ih h]
      simp

theorem dictKeys_insert_iff {d : List (String × α)} {k k' : String} {v : α} :
    k' ∈ dictKeys (dictInsert d k v) ↔ k' ∈ dictKeys d ∨ k' = k := by
  induction d with
  | nil => simp [dictInsert, dictKeys]
  | cons kv rest ih =>
    obtain ⟨k0, v0⟩ := kv
    by_cases hk : k0 = k
    · subst hk
      rw [dictInsert_cons_self]
      simp only [dictKeys_cons, List.mem_cons]
      tauto
    · rw [dictInsert_cons_ne hk]
      simp only [dictKeys_cons, List.mem_cons, ih]
      tauto

theorem dictValues_insert_sub {d : List (String × α)} {k : String} {v q : α}
    (h : q ∈ dictValues (dictInsert d k v)) : q ∈ dictValues d ∨ q = v := by
  induction d with
  | nil =>
    simp [dictInsert, dictValues] at h
    exact Or.inr h
  | cons kv rest ih =>
    obtain ⟨k0, v0⟩ := kv
    by_cases hk : k0 = k
    · subst hk
      rw [dictInsert_cons_self] at h
      simp only [dictValues_cons, List.mem_cons] at h ⊢
      tauto
    · rw [dictInsert_cons_ne hk] at h
      simp only [dictValues_cons, List.mem_cons] at h ⊢
      rcases h with h | h
      · exact Or.inl (Or.inl h)
      · rcases ih h with h' | h'
        · exact Or.inl (Or.inr h')
        · exact Or.inr h'

theorem ddElems_append_iff {d : List (String × List β)} {k : String}
    {x q : β} : q ∈ ddElems (ddAppend d k x) ↔ q ∈ ddElems d ∨ q = x := by
  induction d with
  | nil => simp [ddAppend, ddElems]
  | cons kv rest ih =>
    obtain ⟨k0, xs⟩ := kv
    by_cases hk : k0 = k
    · subst hk
      rw [ddAppend_cons_self]
      simp only [ddElems_cons, List.mem_append, List.mem_singleton]
      tauto
    · rw [ddAppend_cons_ne hk]
      simp only [ddElems_cons, List.mem_append, ih]
      tauto

theorem dictKeys_ddAppend_iff {d : List (String × List β)} {k k' : String}
    {x : β} : k' ∈ dictKeys (ddAppend d k x) ↔ k' ∈ dictKeys d ∨ k' = k := by
  induction d with
  | nil => simp [ddAppend, dictKeys]
  | cons kv rest ih =>
    obtain ⟨k0, xs⟩ := kv
    by_cases hk : k0 = k
    · subst hk
      rw [ddAppend_cons_self]
      simp only [dictKeys_cons, List.mem_cons]
      tauto
    · rw [ddAppend_cons_ne hk]
      simp only [dictKeys_cons, List.mem_cons, ih]
      tauto

theorem dictLookup_getD_mem {d : List (String × α)} {k : String}
    (h : dictContains d k = true) (w : α) :
    (dictLookup d k).getD w ∈ dictValues d := by
  induction d with
  | nil => simp [dictContains, dictLookup] at h
  | cons kv rest ih =>
    obtain ⟨k0, v0⟩ := kv
    by_cases hk : k0 = k
    · subst hk
      simp [dictLookup, dictValues]
    · simp only [dictContains, dictLookup, if_neg hk] at h
      simp only [dictLookup, if_neg hk, dictValues_cons, List.mem_cons]
      exact Or.inr (ih h)

/-! ## Helper lemmas on the first-match scan -/

theorem findFirstMatch_none_iff {ham : String → String → Nat} {t : Nat}
    {ph : String} {l : List (String × FilePath)} :
    findFirstMatch ham t ph l = none ↔ ∀ kv ∈ l, ¬ ham ph kv.1 ≤ t := by
  induction l with
  | nil => simp [findFirstMatch]
  | cons kv rest ih =>
    obtain ⟨k, v⟩ := kv
    by_cases h : ham ph k ≤ t
    · simp only [findFirstMatch, if_pos h]
      constructor
      · intro hc
        exact absurd hc (by simp)
      · intro hall
        exact absurd h (hall (k, v) (List.mem_cons_self _ _))
    · simp only [findFirstMatch, if_neg h]
      rw [ih]
      constructor
      · intro hall kv hkv
        rcases List.mem_cons.mp hkv with rfl | hm
        · exact h
        · exact hall kv hm
      · intro hall kv hkv
        exact hall kv (List.mem_cons_of_mem _ hkv)

theorem findFirstMatch_some_decomp {ham : String → String → Nat} {t : Nat}
    {ph k : String} {l : List (String × FilePath)}
    (h : findFirstMatch ham t ph l = some k) :
    ham ph k ≤ t ∧ ∃ orig pre post, l = pre ++ (k, orig) :: post
      ∧ ∀ kv ∈ pre, ¬ ham ph kv.1 ≤ t := by
  induction l with
  | nil => simp [findFirstMatch] at h
  | cons kv rest ih =>
    obtain ⟨k0, v0⟩ := kv
    by_cases hle : ham ph k0 ≤ t
    · simp only [findFirstMatch, if_pos hle, Option.some.injEq] at h
      subst h
      exact ⟨hle, v0, [], rest, by simp⟩
    · simp only [findFirstMatch, if_neg hle] at h
      obtain ⟨h1, orig, pre, post, heq, hpre⟩ := ih h
      refine ⟨h1, orig, (k0, v0) :: pre, post, by simp [heq], ?_⟩
      intro kv hkv
      rcases List.mem_cons.mp hkv with h' | h'
      · subst h'; exact hle
      · exact hpre kv h'

theorem findFirstMatch_some_mem {ham : String → String → Nat} {t : Nat}
    {ph k : String} {l : List (String × FilePath)}
    (h : findFirstMatch ham t ph l = some k) :
    ham ph k ≤ t ∧ k ∈ dictKeys l := by
  obtain ⟨h1, orig, pre, post, heq, -⟩ := findFirstMatch_some_decomp h
  exact ⟨h1, by simp [heq, dictKeys]⟩

theorem findFirstMatch_isSome_of_covered {ham : String → String → Nat}
    {t : Nat} {ph k : String} {l : List (String × FilePath)}
    (hk : k ∈ dictKeys l) (hle : ham ph k ≤ t) :
    (findFirstMatch ham t ph l).isSome = true := by
  induction l with
  | nil => simp [dictKeys] at hk
  | cons kv rest ih =>
    obtain ⟨k0, v0⟩ := kv
    by_cases h0 : ham ph k0 ≤ t
    · simp [findFirstMatch, h0]
    · rw [dictKeys_cons, List.mem_cons] at hk
      rcases hk with rfl | hk
      · exact absurd hle h0
      · simp only [findFirstMatch, if_neg h0]
        exact ih hk

/-! ## C7: report count equations -/

/-- C7: in the generated report, `exact_duplicates_count` equals the sum
of the duplicate-list lengths over all exact groups, and
`total_images_scanned` equals the number of canonical (distinct-digest)
entries plus `exact_duplicates_count`. -/
theorem c7_report_counts (st : DCState) (ts : String) :
    (generate_report st ts).exact_duplicates_count
      = ((generate_report st ts).exact_duplicates.map
          (fun g => g.members.length)).sum
    ∧ (generate_report st ts).total_images_scanned
      = st.sha256_map.length + (generate_report st ts).exact_duplicates_count := by
  constructor
  · show sumLens st.exact_duplicates = _
    simp only [generate_report, List.map_map]
    rfl
  · rfl

/-! ## C10: default perceptual-hash threshold -/

/-- C10: a configuration without the `perceptual_hash_threshold` key
yields a checker with Hamming-distance threshold exactly 10, and the
checker's scan is the scan with bound 10. -/
theorem c10_default_threshold (cfg : Config)
    (h : cfg.perceptual_hash_threshold = none) :
    (DuplicateChecker.init cfg).phash_threshold = 10
    ∧ ∀ (m : HashModel) (fs : FilePath → Option Content) (st : DCState)
        (files : List FilePath),
        checkerCheck (DuplicateChecker.init cfg) m fs st files
          = check_duplicates m 10 fs st files := by
  have ht : (DuplicateChecker.init cfg).phash_threshold = 10 := by
    simp [DuplicateChecker.init, h]
  exact ⟨ht, fun m fs st files => by rw [checkerCheck, ht]⟩

/-- Witness for C10 at the concrete configuration `cfgTest` (which lacks
the threshold key). -/
theorem c10_witness :
    (DuplicateChecker.init cfgTest).phash_threshold = 10
    ∧ checkerCheck (DuplicateChecker.init cfgTest) mTest fsTest
        DCState.empty [pA]
      = check_duplicates mTest 10 fsTest DCState.empty [pA] :=
  ⟨(c10_default_threshold cfgTest rfl).1,
   (c10_default_threshold cfgTest rfl).2 mTest fsTest DCState.empty [pA]⟩

/-! ## Concrete counterexamples -/

/-- C1 counterexample: `pB` is byte-identical to `pA`, so its digest is
already in the canonical map — yet `check_duplicates` still performs the
perceptual comparison and appends `pB` to the existing similarity group
keyed by `pA`'s fingerprint. -/
theorem c1_counterexample :
    check_duplicates mTest 10 fsSame DCState.empty [pA, pB] = some stC1
    ∧ pB ∈ dupPaths stC1 ∧ pB ∈ similarMembers stC1 := by
  decide

/-- C3 counterexample: `pC` is a canonical entry of the sha256 map (its
digest is fresh), yet it appears in the `similar_images` list of the
similarity group keyed by `pA`'s fingerprint in the generated report. -/
theorem c3_counterexample :
    check_duplicates mTest 10 fsTest DCState.empty [pA, pC] = some stC3
    ∧ pC ∈ shaCanonicals stC3
    ∧ (generate_report stC3 "ts").similar_duplicates = [⟨"1", pA, [pC]⟩] := by
  decide

/-- C4 counterexample: `pBad` is unreadable while `pA` is readable, but
the `IOError` from `calculate_sha256` is uncaught, so the whole scan
aborts and `pA` is never processed (rather than `pBad` being skipped and
the run continuing). -/
theorem c4_counterexample :
    fsBad pA = some 1
    ∧ check_duplicates mTest 10 fsBad DCState.empty [pBad, pA] = none := by
  decide

/-- C9 counterexample: a file named `._x.jpg` (macOS resource-fork
artifact) is returned by `find_all_images` — no `._` filter exists in the
duplicate checker's discovery. -/
theorem c9_counterexample :
    ["root", "._x.jpg"] ∈
      find_all_images dirExistsTest (rglobModel afDot) [["root"]] [".jpg"]
    ∧ strStartsWith (filename ["root", "._x.jpg"]) "._" = true := by
  decide

/-- C5 counterexample: the mover computes the destination relative to the
parent of the FIRST source root (`["r", "x"]`), not relative to the
common ancestor of all roots (`["r"]`): the duplicate lands at
`bk/duplicates_t/s1/f.jpg` instead of `bk/duplicates_t/x/s1/f.jpg`. -/
theorem c5_counterexample :
    backup_and_remove_duplicates rootsTest ["bk"] "t" [("h", [dupF])] [dupF]
      = some ([(dupF, ["bk", "duplicates_t", "s1", "f.jpg"])],
              [["bk", "duplicates_t", "s1", "f.jpg"]])
    ∧ relative_to dupF (commonAncestor rootsTest) = some ["x", "s1", "f.jpg"]
    ∧ (["bk", "duplicates_t", "s1", "f.jpg"] : FilePath)
        ≠ ["bk", "duplicates_t"] ++ ["x", "s1", "f.jpg"] := by
  decide

/-- C6 counterexample: the same set of discovered files, enumerated in
two different orders, is handed to the scan as is (no sorting), and the
resulting grouping differs — so the caller imposes no stable order and
the grouping is not reproducible across enumeration orders. -/
theorem c6_counterexample :
    (find_all_images dirExistsTest (rglobModel afOrd1) ckTest.source_folders
        ckTest.extensions).Perm
      (find_all_images dirExistsTest (rglobModel afOrd2) ckTest.source_folders
        ckTest.extensions)
    ∧ runScan ckTest dirExistsTest (rglobModel afOrd1) mTest fsTest
      ≠ runScan ckTest dirExistsTest (rglobModel afOrd2) mTest fsTest := by
  decide

/-! ## C2: first-match-wins grouping -/

/-- C2: for a file whose fingerprint computes, the scan walks the
similarity-group list in creation order and appends the file to the
first group whose key fingerprint is within the threshold, leaving the
group list itself unchanged; when no existing key is within threshold it
appends a brand-new group keyed by this fingerprint, with this file as
the group's original. -/
theorem c2_first_match (m : HashModel) (t : Nat) (st : DCState)
    (p : FilePath) (c : Content) (ph : String)
    (hph : m.phash c = some ph) (hzero : ∀ x, m.hamming x x = 0) :
    (∃ k orig pre post,
        st.phash_map = pre ++ (k, orig) :: post
        ∧ (∀ kv ∈ pre, ¬ m.hamming ph kv.1 ≤ t)
        ∧ m.hamming ph k ≤ t
        ∧ phashStep m t st p c
            = { st with similar_duplicates := ddAppend st.similar_duplicates k p })
    ∨ ((∀ kv ∈ st.phash_map, ¬ m.hamming ph kv.1 ≤ t)
        ∧ phashStep m t st p c
            = { st with phash_map := st.phash_map ++ [(ph, p)] }) := by
  cases hf : findFirstMatch m.hamming t ph st.phash_map with
  | some k =>
    left
    obtain ⟨h1, orig, pre, post, heq, hpre⟩ := findFirstMatch_some_decomp hf
    exact ⟨k, orig, pre, post, heq, hpre, h1, by simp [phashStep, hph, hf]⟩
  | none =>
    right
    have hall := findFirstMatch_none_iff.mp hf
    refine ⟨hall, ?_⟩
    have hnc : dictContains st.phash_map ph = false := by
      cases hcc : dictContains st.phash_map ph
      · rfl
      · exfalso
        obtain ⟨v, hv⟩ := dictKeys_mem_iff.mp (dictContains_iff.mp hcc)
        exact hall (ph, v) hv (by rw [hzero ph]; exact Nat.zero_le t)
    have hins := dictInsert_of_not_contains hnc p
    have hstep : phashStep m t st p c
        = { st with phash_map := dictInsert st.phash_map ph p } := by
      simp [phashStep, hph, hf]
    rw [hstep, hins]

/-- Witness for C2 at a concrete mid-scan state: the file `pC`
(fingerprint `"3"`) joins the group keyed `"1"` (distance 4 ≤ 10). -/
theorem c2_witness :
    phashStep mTest 10 stW pC 3
      = { stW with similar_duplicates := ddAppend stW.similar_duplicates "1" pC } := by
  rcases c2_first_match mTest 10 stW pC 3 "3" rfl
      (fun x => by simp [mTest, hamTest]) with
    ⟨k, orig, pre, post, heq, hpre, hle, hstep⟩ | ⟨hall, hstep⟩
  · cases pre with
    | nil =>
      have hk : k = "1" := by
        have : stW.phash_map = (k, orig) :: post := heq
        rw [show stW.phash_map = [("1", pA)] from rfl] at this
        injection this with h1 h2
        injection h1 with h3 h4
        exact h3.symm
      rw [hstep, hk]
    | cons a pre' =>
      exfalso
      have : stW.phash_map = a :: (pre' ++ (k, orig) :: post) := heq
      rw [show stW.phash_map = [("1", pA)] from rfl] at this
      injection this with h1 h2
      exact absurd h2.symm (by simp)
  · exfalso
    exact hall ("1", pA) (by decide) (by decide)

/-! ## C4: read-failure behaviour -/

/-- C4 amended: a pHash decode failure only skips the fingerprint phase
(the file still enters the digest phase and the scan continues), but an
`IOError` while reading for SHA-256 is uncaught and kills the whole
scan. -/
theorem c4_amended (m : HashModel) (t : Nat) (fs : FilePath → Option Content)
    (st : DCState) (p : FilePath) (rest : List FilePath) :
    (fs p = none → check_duplicates m t fs st (p :: rest) = none)
    ∧ (∀ c, fs p = some c → m.phash c = none →
        (shaStep m st p c).phash_map = st.phash_map
        ∧ (shaStep m st p c).similar_duplicates = st.similar_duplicates
        ∧ check_duplicates m t fs st (p :: rest)
            = check_duplicates m t fs (shaStep m st p c) rest) := by
  refine ⟨fun h => by simp [check_duplicates, processFile, h], ?_⟩
  intro c hc hph
  refine ⟨?_, ?_, ?_⟩
  · by_cases hcc : dictContains st.sha256_map (m.sha c) = true
    · simp [shaStep, hcc]
    · simp [shaStep, hcc]
  · by_cases hcc : dictContains st.sha256_map (m.sha c) = true
    · simp [shaStep, hcc]
    · simp [shaStep, hcc]
  · simp [check_duplicates, processFile, hc, phashStep, hph]

/-- Witness for C4: the concrete scan dies on the unreadable `pBad`. -/
theorem c4_witness :
    check_duplicates mTest 10 fsBad DCState.empty [pBad, pA] = none :=
  (c4_amended mTest 10 fsBad DCState.empty pBad [pA]).1 (by decide)

/-! ## C8: second run moves nothing -/

theorem backupDups_skip {folders : List FilePath} {subdir : FilePath}
    {dups fsx : List FilePath} (h : ∀ d ∈ dups, d ∉ fsx) :
    backupDups folders subdir dups fsx = some ([], fsx) := by
  induction dups with
  | nil => rfl
  | cons d rest ih =>
    have hd : d ∉ fsx := h d (List.mem_cons_self _ _)
    simp only [backupDups]
    rw [if_neg hd]
    exact ih (fun d' hd' => h d' (List.mem_cons_of_mem _ hd'))

theorem backupGroups_skip {folders : List FilePath} {subdir : FilePath}
    {fsx : List FilePath} :
    ∀ (groups : List (String × List FilePath)),
      (∀ kv ∈ groups, ∀ d ∈ kv.2, d ∉ fsx) →
      backupGroups folders subdir groups fsx = some ([], fsx) := by
  intro groups
  induction groups with
  | nil => intro _; rfl
  | cons kv rest ih =>
    intro h
    obtain ⟨key, dups⟩ := kv
    simp only [backupGroups,
      backupDups_skip (h (key, dups) (List.mem_cons_self _ _)),
      ih (fun kv' hkv' => h kv' (List.mem_cons_of_mem _ hkv'))]
    rfl

/-- C8: when none of the recorded duplicate paths still exists at its
original location (as after a first relocation run), the backup mover
performs no move at all: `moved_count` is `0` and the filesystem is
untouched. -/
theorem c8_idempotent (folders : List FilePath) (backupDir : FilePath)
    (ts : String) (groups : List (String × List FilePath))
    (fsx : List FilePath)
    (h : ∀ kv ∈ groups, ∀ d ∈ kv.2, d ∉ fsx) :
    backup_and_remove_duplicates folders backupDir ts groups fsx
      = some ([], fsx) := by
  unfold backup_and_remove_duplicates
  exact backupGroups_skip groups h

/-- Witness for C8: re-running the mover after `dupF` was already moved
away relocates nothing. -/
theorem c8_witness :
    backup_and_remove_duplicates rootsTest ["bk"] "t" [("h", [dupF])] []
      = some ([], []) :=
  c8_idempotent rootsTest ["bk"] "t" [("h", [dupF])] [] (by decide)

/-! ## C5: destination of a moved duplicate -/

theorem moveDest_some_iff {folders : List FilePath} {subdir d dest : FilePath} :
    moveDest folders subdir d = some dest
      ↔ ∃ r0 rest rel, folders = r0 :: rest
          ∧ relative_to d (parent r0) = some rel ∧ dest = subdir ++ rel := by
  cases folders with
  | nil => simp [moveDest]
  | cons r0 frest =>
    constructor
    · intro h
      cases hrel : relative_to d (parent r0) with
      | none => simp [moveDest, hrel] at h
      | some rel =>
        simp only [moveDest, hrel, Option.map_some', Option.some.injEq] at h
        exact ⟨r0, frest, rel, rfl, hrel, h.symm⟩
    · rintro ⟨r0', rest', rel, heq, hrel, hdest⟩
      have h1 : r0' = r0 ∧ rest' = frest := by
        have := heq
        injection this with ha hb
        exact ⟨ha.symm, hb.symm⟩
      obtain ⟨rfl, rfl⟩ := h1
      simp [moveDest, hrel, hdest]

theorem backupDups_moves {folders : List FilePath} {subdir : FilePath} :
    ∀ {dups fsx : List FilePath} {mvs : List (FilePath × FilePath)}
      {fs' : List FilePath},
      backupDups folders subdir dups fsx = some (mvs, fs') →
      (∀ mv ∈ mvs, moveDest folders subdir mv.1 = some mv.2)
      ∧ fs' = mvs.foldl (fun f mv => (f.erase mv.1) ++ [mv.2]) fsx := by
  intro dups
  induction dups with
  | nil =>
    intro fsx mvs fs' h
    simp only [backupDups, Option.some.injEq, Prod.mk.injEq] at h
    obtain ⟨h1, h2⟩ := h
    subst h1
    subst h2
    exact ⟨by simp, rfl⟩
  | cons d rest ih =>
    intro fsx mvs fs' h
    by_cases hd : d ∈ fsx
    · simp only [backupDups] at h
      rw [if_pos hd] at h
      cases hmd : moveDest folders subdir d with
      | none => simp [hmd] at h
      | some dest =>
        simp only [hmd] at h
        cases hrec : backupDups folders subdir rest ((fsx.erase d) ++ [dest]) with
        | none => simp [hrec] at h
        | some pr =>
          obtain ⟨mvs1, fs1⟩ := pr
          simp only [hrec, Option.some.injEq, Prod.mk.injEq] at h
          obtain ⟨hm, hf⟩ := h
          subst hm
          subst hf
          obtain ⟨ihall, ihfold⟩ := ih hrec
          constructor
          · intro mv hmv
            rcases List.mem_cons.mp hmv with rfl | hmv'
            · exact hmd
            · exact ihall mv hmv'
          · simpa [List.foldl_cons] using ihfold
    · simp only [backupDups] at h
      rw [if_neg hd] at h
      exact ih h

theorem backupGroups_moves {folders : List FilePath} {subdir : FilePath} :
    ∀ {groups : List (String × List FilePath)} {fsx : List FilePath}
      {mvs : List (FilePath × FilePath)} {fs' : List FilePath},
      backupGroups folders subdir groups fsx = some (mvs, fs') →
      (∀ mv ∈ mvs, moveDest folders subdir mv.1 = some mv.2)
      ∧ fs' = mvs.foldl (fun f mv => (f.erase mv.1) ++ [mv.2]) fsx := by
  intro groups
  induction groups with
  | nil =>
    intro fsx mvs fs' h
    simp only [backupGroups, Option.some.injEq, Prod.mk.injEq] at h
    obtain ⟨h1, h2⟩ := h
    subst h1
    subst h2
    exact ⟨by simp, rfl⟩
  | cons kv rest ih =>
    intro fsx mvs fs' h
    obtain ⟨key, dups⟩ := kv
    simp only [backupGroups] at h
    cases hd : backupDups folders subdir dups fsx with
    | none => simp [hd] at h
    | some pr1 =>
      obtain ⟨mvs1, fs1⟩ := pr1
      simp only [hd] at h
      cases hg : backupGroups folders subdir rest fs1 with
      | none => simp [hg] at h
      | some pr2 =>
        obtain ⟨mvs2, fs2⟩ := pr2
        simp only [hg, Option.some.injEq, Prod.mk.injEq] at h
        obtain ⟨hm, hf⟩ := h
        subst hm
        subst hf
        obtain ⟨hall1, hfold1⟩ := backupDups_moves hd
        obtain ⟨hall2, hfold2⟩ := ih hg
        constructor
        · intro mv hmv
          rcases List.mem_append.mp hmv with hmv' | hmv'
          · exact hall1 mv hmv'
          · exact hall2 mv hmv'
        · rw [List.foldl_append, ← hfold1]
          exact hfold2

/-- C5 amended: every move performed by
`backup_and_remove_duplicates` sends the duplicate to the timestamped
quarantine directory extended by the duplicate's path relative to the
parent of the FIRST configured source root (not the common ancestor of
all roots), and the filesystem afterwards is the fold of
erase-source/append-destination moves (a relocation, not a copy). -/
theorem c5_amended (folders : List FilePath) (backupDir : FilePath)
    (ts : String) (groups : List (String × List FilePath))
    (fsx : List FilePath) (mvs : List (FilePath × FilePath))
    (fs' : List FilePath)
    (h : backup_and_remove_duplicates folders backupDir ts groups fsx
          = some (mvs, fs')) :
    (∀ mv ∈ mvs, ∃ r0 rest rel, folders = r0 :: rest
        ∧ relative_to mv.1 (parent r0) = some rel
        ∧ mv.2 = (backupDir ++ ["duplicates_" ++ ts]) ++ rel)
    ∧ fs' = mvs.foldl (fun f mv => (f.erase mv.1) ++ [mv.2]) fsx := by
  unfold backup_and_remove_duplicates at h
  obtain ⟨hall, hfold⟩ := backupGroups_moves h
  exact ⟨fun mv hmv => moveDest_some_iff.mp (hall mv hmv), hfold⟩

/-- Witness for C5: the concrete single-duplicate move, with the
post-move filesystem produced by the erase/append fold. -/
theorem c5_witness :
    ([["bk", "duplicates_t", "s1", "f.jpg"]] : List FilePath)
      = [(dupF, (["bk", "duplicates_t", "s1", "f.jpg"] : FilePath))].foldl
          (fun f mv => (f.erase mv.1) ++ [mv.2]) [dupF] :=
  (c5_amended rootsTest ["bk"] "t" [("h", [dupF])] [dupF]
    [(dupF, ["bk", "duplicates_t", "s1", "f.jpg"])]
    [["bk", "duplicates_t", "s1", "f.jpg"]] (by decide)).2

/-! ## C9 and C6: discovery normal form, no ordering imposed -/

theorem foldl_extend (r : FilePath → String → List FilePath) (f : FilePath) :
    ∀ (exts : List String) (acc : List FilePath),
      exts.foldl (fun a e => a ++ r f e) acc = acc ++ (exts.map (r f)).flatten := by
  intro exts
  induction exts with
  | nil => intro acc; simp
  | cons e es ih =>
    intro acc
    simp only [List.foldl_cons, List.map_cons, List.flatten_cons, ih,
      List.append_assoc]

theorem find_all_images_normal (dirExists : FilePath → Bool)
    (rglob : FilePath → String → List FilePath)
    (folders : List FilePath) (exts : List String) :
    find_all_images dirExists rglob folders exts
      = ((folders.filter dirExists).map
          (fun f => (exts.map (rglob f)).flatten)).flatten := by
  have key : ∀ (fl : List FilePath) (acc : List FilePath),
      fl.foldl (fun acc folder => if dirExists folder then
          exts.foldl (fun a e => a ++ rglob folder e) acc else acc) acc
        = acc ++ ((fl.filter dirExists).map
            (fun f => (exts.map (rglob f)).flatten)).flatten := by
    intro fl
    induction fl with
    | nil => intro acc; simp
    | cons f fl ih =>
      intro acc
      by_cases hf : dirExists f
      · rw [List.foldl_cons, if_pos hf, foldl_extend rglob f exts acc, ih]
        simp [List.filter_cons, hf, List.append_assoc]
      · rw [List.foldl_cons, if_neg hf, ih]
        simp [List.filter_cons, hf]
  simpa [find_all_images] using key folders []

/-- C9 amended: a path is discovered precisely when it lies (recursively)
under some EXISTING configured root and its filename ends with some
configured extension — missing roots are skipped (non-fatal), and there
is no resource-fork (`._`) exclusion of any kind. -/
theorem c9_discovery (dirExists : FilePath → Bool)
    (allFiles folders : List FilePath) (exts : List String) (p : FilePath) :
    p ∈ find_all_images dirExists (rglobModel allFiles) folders exts
      ↔ ∃ f ∈ folders, dirExists f = true ∧ ∃ e ∈ exts,
          p ∈ allFiles ∧ isUnder f p = true
            ∧ strEndsWith (filename p) e = true := by
  rw [find_all_images_normal]
  simp only [List.mem_flatten, List.mem_map, List.mem_filter]
  constructor
  · rintro ⟨l, ⟨f, ⟨hf, hex⟩, rfl⟩, hp⟩
    simp only [List.mem_flatten, List.mem_map] at hp
    obtain ⟨l2, ⟨e, he, rfl⟩, hp2⟩ := hp
    simp only [rglobModel, List.mem_filter, Bool.and_eq_true] at hp2
    exact ⟨f, hf, hex, e, he, hp2.1, hp2.2.1, hp2.2.2⟩
  · rintro ⟨f, hf, hex, e, he, hpa, hund, hend⟩
    refine ⟨(exts.map (rglobModel allFiles f)).flatten, ⟨f, ⟨hf, hex⟩, rfl⟩, ?_⟩
    simp only [List.mem_flatten, List.mem_map]
    refine ⟨rglobModel allFiles f e, ⟨e, he, rfl⟩, ?_⟩
    simp only [rglobModel, List.mem_filter, Bool.and_eq_true]
    exact ⟨hpa, hund, hend⟩

/-- C6 amended: `run` imposes no ordering on the discovered sequence —
the scan receives exactly the concatenation, in filesystem enumeration
order, of the per-root per-extension `rglob` results (missing roots
filtered out), with no sorting in between. -/
theorem c6_no_order_imposed (ck : DuplicateChecker)
    (dirExists : FilePath → Bool) (rglob : FilePath → String → List FilePath)
    (m : HashModel) (fs : FilePath → Option Content) :
    runScan ck dirExists rglob m fs
      = check_duplicates m ck.phash_threshold fs DCState.empty
          (((ck.source_folders.filter dirExists).map
              (fun f => (ck.extensions.map (rglob f)).flatten)).flatten) := by
  unfold runScan checkerCheck
  rw [find_all_images_normal]

/-! ## Step case analyses and invariant preservation -/

theorem shaStep_cases (m : HashModel) (st : DCState) (p : FilePath)
    (c : Content) :
    (dictContains st.sha256_map (m.sha c) = true
      ∧ shaStep m st p c
          = { st with exact_duplicates := ddAppend st.exact_duplicates (m.sha c) p })
    ∨ (dictContains st.sha256_map (m.sha c) = false
      ∧ shaStep m st p c
          = { st with sha256_map := dictInsert st.sha256_map (m.sha c) p }) := by
  by_cases hcc : dictContains st.sha256_map (m.sha c) = true
  · exact Or.inl ⟨hcc, by simp [shaStep, hcc]⟩
  · refine Or.inr ⟨by simpa using hcc, by simp [shaStep, hcc]⟩

theorem phashStep_cases (m : HashModel) (t : Nat) (st : DCState)
    (p : FilePath) (c : Content) :
    (m.phash c = none ∧ phashStep m t st p c = st)
    ∨ (∃ ph key, m.phash c = some ph
        ∧ findFirstMatch m.hamming t ph st.phash_map = some key
        ∧ phashStep m t st p c
            = { st with similar_duplicates := ddAppend st.similar_duplicates key p })
    ∨ (∃ ph, m.phash c = some ph
        ∧ findFirstMatch m.hamming t ph st.phash_map = none
        ∧ phashStep m t st p c
            = { st with phash_map := dictInsert st.phash_map ph p }) := by
  cases hph : m.phash c with
  | none => exact Or.inl ⟨rfl, by simp [phashStep, hph]⟩
  | some ph =>
    cases hf : findFirstMatch m.hamming t ph st.phash_map with
    | some key =>
      exact Or.inr (Or.inl ⟨ph, key, rfl, hf, by simp [phashStep, hph, hf]⟩)
    | none =>
      exact Or.inr (Or.inr ⟨ph, rfl, hf, by simp [phashStep, hph, hf]⟩)

theorem sideInv_append {processed : List FilePath} {p : FilePath}
    {groups : List (String × List FilePath)}
    {canon : List (String × FilePath)} {k : String}
    (hfresh : p ∉ processed) (hinv : sideInv processed groups canon)
    (hkey : dictContains canon k = true) :
    sideInv (p :: processed) (ddAppend groups k p) canon := by
  obtain ⟨i1, i2, i3, i4⟩ := hinv
  refine ⟨?_, ?_, ?_, ?_⟩
  · intro q hq hmem
    rcases ddElems_append_iff.mp hmem with hm | rfl
    · exact i1 q hq hm
    · exact hfresh (i2 q hq)
  · intro q hq
    exact List.mem_cons_of_mem _ (i2 q hq)
  · intro q hq
    rcases ddElems_append_iff.mp hq with hm | rfl
    · exact List.mem_cons_of_mem _ (i3 q hm)
    · exact List.mem_cons_self _ _
  · intro k' hk'
    rcases dictKeys_ddAppend_iff.mp hk' with hm | rfl
    · exact i4 k' hm
    · exact hkey

theorem sideInv_insert {processed : List FilePath} {p : FilePath}
    {groups : List (String × List FilePath)}
    {canon : List (String × FilePath)} {k : String}
    (hfresh : p ∉ processed) (hinv : sideInv processed groups canon) :
    sideInv (p :: processed) groups (dictInsert canon k p) := by
  obtain ⟨i1, i2, i3, i4⟩ := hinv
  refine ⟨?_, ?_, ?_, ?_⟩
  · intro q hq hmem
    rcases dictValues_insert_sub hq with hm | rfl
    · exact i1 q hm hmem
    · exact hfresh (i3 q hmem)
  · intro q hq
    rcases dictValues_insert_sub hq with hm | rfl
    · exact List.mem_cons_of_mem _ (i2 q hm)
    · exact List.mem_cons_self _ _
  · intro q hq
    exact List.mem_cons_of_mem _ (i3 q hq)
  · intro k' hk'
    rw [dictContains_iff, dictKeys_insert_iff]
    exact Or.inl (dictContains_iff.mp (i4 k' hk'))

theorem sideInv_weaken {processed : List FilePath} {p : FilePath}
    {groups : List (String × List FilePath)}
    {canon : List (String × FilePath)}
    (hinv : sideInv processed groups canon) :
    sideInv (p :: processed) groups canon := by
  obtain ⟨i1, i2, i3, i4⟩ := hinv
  exact ⟨i1, fun q hq => List.mem_cons_of_mem _ (i2 q hq),
    fun q hq => List.mem_cons_of_mem _ (i3 q hq), i4⟩

theorem reportInv_step {m : HashModel} {t : Nat}
    {fs : FilePath → Option Content} {processed : List FilePath}
    {st st' : DCState} {p : FilePath}
    (hp : p ∉ processed) (hinv : reportInv processed st)
    (h : processFile m t fs st p = some st') :
    reportInv (p :: processed) st' := by
  obtain ⟨hsha, hph⟩ := hinv
  cases hfs : fs p with
  | none => simp [processFile, hfs] at h
  | some c =>
    simp only [processFile, hfs, Option.some.injEq] at h
    subst h
    rcases phashStep_cases m t (shaStep m st p c) p c with
      ⟨hphc, he2⟩ | ⟨ph, key, hphc, hf, he2⟩ | ⟨ph, hphc, hf, he2⟩ <;>
    rw [he2] <;>
    rcases shaStep_cases m st p c with ⟨hcc, he⟩ | ⟨hcc, he⟩ <;>
    rw [he] <;>
    constructor
    · exact sideInv_append hp hsha hcc
    · exact sideInv_weaken hph
    · exact sideInv_insert hp hsha
    · exact sideInv_weaken hph
    · exact sideInv_append hp hsha hcc
    · refine sideInv_append hp hph ?_
      rw [dictContains_iff]
      have := (findFirstMatch_some_mem hf).2
      rw [he] at this
      exact this
    · exact sideInv_insert hp hsha
    · refine sideInv_append hp hph ?_
      rw [dictContains_iff]
      have := (findFirstMatch_some_mem hf).2
      rw [he] at this
      exact this
    · exact sideInv_append hp hsha hcc
    · exact sideInv_insert hp hph
    · exact sideInv_insert hp hsha
    · exact sideInv_insert hp hph

theorem check_preserves_reportInv {m : HashModel} {t : Nat}
    {fs : FilePath → Option Content} :
    ∀ (files processed : List FilePath) (st st' : DCState),
      (∀ q ∈ files, q ∉ processed) → files.Nodup →
      reportInv processed st →
      check_duplicates m t fs st files = some st' →
      ∃ processed', reportInv processed' st' := by
  intro files
  induction files with
  | nil =>
    intro processed st st' _ _ hinv h
    simp only [check_duplicates, Option.some.injEq] at h
    subst h
    exact ⟨processed, hinv⟩
  | cons p rest ih =>
    intro processed st st' hdis hnd hinv h
    simp only [check_duplicates] at h
    cases hpf : processFile m t fs st p with
    | none => simp [hpf] at h
    | some st1 =>
      simp only [hpf] at h
      have hfresh : p ∉ processed := hdis p (List.mem_cons_self _ _)
      have hnd' := List.nodup_cons.mp hnd
      refine ih (p :: processed) st1 st' ?_ hnd'.2
        (reportInv_step hfresh hinv hpf) h
      intro q hq hmem
      rcases List.mem_cons.mp hmem with rfl | hm
      · exact hnd'.1 hq
      · exact hdis q (List.mem_cons_of_mem _ hq) hm

/-- C3 amended: over distinct input paths, no exact group's original
appears in any exact group's duplicates list, and no similarity group's
original appears in any similarity group's similar-images list, in the
generated report. (The cross-kind statement of the claim fails: see the
counterexample.) -/
theorem c3_amended (m : HashModel) (t : Nat)
    (fs : FilePath → Option Content) (files : List FilePath)
    (st' : DCState) (ts : String) (hnd : files.Nodup)
    (h : check_duplicates m t fs DCState.empty files = some st') :
    (∀ g ∈ (generate_report st' ts).exact_duplicates,
        ∀ g' ∈ (generate_report st' ts).exact_duplicates,
          g.original ∉ g'.members)
    ∧ (∀ g ∈ (generate_report st' ts).similar_duplicates,
        ∀ g' ∈ (generate_report st' ts).similar_duplicates,
          g.original ∉ g'.members) := by
  have hbase : reportInv [] DCState.empty := by
    constructor <;> refine ⟨?_, ?_, ?_, ?_⟩ <;> intro x hx <;>
      simp [DCState.empty, dictValues, dictKeys, ddElems] at hx
  obtain ⟨processed, hinv⟩ :=
    check_preserves_reportInv files [] DCState.empty st' (by simp) hnd hbase h
  obtain ⟨⟨e1, _, _, e4⟩, ⟨s1, _, _, s4⟩⟩ := hinv
  constructor
  · rintro g hg g' hg'
    simp only [generate_report, List.mem_map] at hg hg'
    obtain ⟨⟨k, members⟩, hkv, rfl⟩ := hg
    obtain ⟨⟨k', members'⟩, hkv', rfl⟩ := hg'
    intro hmem
    have hk : k ∈ dictKeys st'.exact_duplicates :=
      List.mem_map.mpr ⟨(k, members), hkv, rfl⟩
    have horig := dictLookup_getD_mem (e4 k hk) unknownPath
    have hdup : (dictLookup st'.sha256_map k).getD unknownPath
        ∈ ddElems st'.exact_duplicates := by
      simp only [ddElems, List.mem_flatten]
      exact ⟨members', List.mem_map.mpr ⟨(k', members'), hkv', rfl⟩, hmem⟩
    exact e1 _ horig hdup
  · rintro g hg g' hg'
    simp only [generate_report, List.mem_map] at hg hg'
    obtain ⟨⟨k, members⟩, hkv, rfl⟩ := hg
    obtain ⟨⟨k', members'⟩, hkv', rfl⟩ := hg'
    intro hmem
    have hk : k ∈ dictKeys st'.similar_duplicates :=
      List.mem_map.mpr ⟨(k, members), hkv, rfl⟩
    have horig := dictLookup_getD_mem (s4 k hk) unknownPath
    have hdup : (dictLookup st'.phash_map k).getD unknownPath
        ∈ ddElems st'.similar_duplicates := by
      simp only [ddElems, List.mem_flatten]
      exact ⟨members', List.mem_map.mpr ⟨(k', members'), hkv', rfl⟩, hmem⟩
    exact s1 _ horig hdup

/-- Witness for C3 at the concrete two-file scan: the similarity group
of the report has original `pA`, which does not sit in its own
similar-images list. -/
theorem c3_witness :
    (⟨"1", pA, [pC]⟩ : ReportGroup).original
      ∉ (⟨"1", pA, [pC]⟩ : ReportGroup).members :=
  (c3_amended mTest 10 fsTest [pA, pC] stC3 "ts" (by decide) (by decide)).2
    ⟨"1", pA, [pC]⟩ (by decide) ⟨"1", pA, [pC]⟩ (by decide)

/-! ## C1: exact duplicates never become similarity-group keys -/

theorem noNewKeyInv_step {m : HashModel} {t : Nat}
    {fs : FilePath → Option Content} {processed : List FilePath}
    {st st' : DCState} {p : FilePath}
    (hp : p ∉ processed)
    (hsp : ∀ c c', m.sha c = m.sha c' → m.phash c = m.phash c')
    (hzero : ∀ x, m.hamming x x = 0)
    (hinv : noNewKeyInv m t fs processed st)
    (h : processFile m t fs st p = some st') :
    noNewKeyInv m t fs (p :: processed) st' := by
  obtain ⟨hcov, hdisj, hdupP, hcanP, hsim⟩ := hinv
  cases hfs : fs p with
  | none => simp [processFile, hfs] at h
  | some c =>
    simp only [processFile, hfs, Option.some.injEq] at h
    subst h
    rcases shaStep_cases m st p c with ⟨hcc, he⟩ | ⟨hcc, he⟩
    · obtain ⟨q0, hq0⟩ := dictKeys_mem_iff.mp (dictContains_iff.mp hcc)
      obtain ⟨c0, hfs0, hsha0, hcov0⟩ := hcov (m.sha c, q0) hq0
      have hphEq : m.phash c0 = m.phash c := hsp c0 c hsha0
      rcases phashStep_cases m t (shaStep m st p c) p c with
        ⟨hphc, he2⟩ | ⟨ph, key, hphc, hf, he2⟩ | ⟨ph, hphc, hf, he2⟩
      · rw [he2, he]
        refine ⟨hcov, ?_, ?_, ?_, ?_⟩
        · intro q hq hmem
          rcases ddElems_append_iff.mp hmem with hm | rfl
          · exact hdisj q hq hm
          · exact hp (hcanP q hq)
        · intro q hq
          rcases ddElems_append_iff.mp hq with hm | rfl
          · exact List.mem_cons_of_mem _ (hdupP q hm)
          · exact List.mem_cons_self _ _
        · intro q hq
          exact List.mem_cons_of_mem _ (hcanP q hq)
        · intro q hq c' ph' hfs' hph'
          rcases ddElems_append_iff.mp hq with hm | rfl
          · exact hsim q hm c' ph' hfs' hph'
          · rw [hfs] at hfs'
            injection hfs' with hc'
            subst hc'
            rw [hphc] at hph'
            cases hph'
      · rw [he2, he]
        refine ⟨hcov, ?_, ?_, ?_, ?_⟩
        · intro q hq hmem
          rcases ddElems_append_iff.mp hmem with hm | rfl
          · exact hdisj q hq hm
          · exact hp (hcanP q hq)
        · intro q hq
          rcases ddElems_append_iff.mp hq with hm | rfl
          · exact List.mem_cons_of_mem _ (hdupP q hm)
          · exact List.mem_cons_self _ _
        · intro q hq
          exact List.mem_cons_of_mem _ (hcanP q hq)
        · intro q hq c' ph' hfs' hph'
          rcases ddElems_append_iff.mp hq with hm | rfl
          · exact ddElems_append_iff.mpr (Or.inl (hsim q hm c' ph' hfs' hph'))
          · exact ddElems_append_iff.mpr (Or.inr rfl)
      · exfalso
        have hc0 : m.phash c0 = some ph := by rw [hphEq, hphc]
        obtain ⟨k, hk, hle⟩ := hcov0 ph hc0
        have hkeys : k ∈ dictKeys (shaStep m st p c).phash_map := by
          rw [he]; exact hk
        have hsome := findFirstMatch_isSome_of_covered hkeys hle
        rw [hf] at hsome
        simp at hsome
    · have hIns : dictInsert st.sha256_map (m.sha c) p
          = st.sha256_map ++ [(m.sha c, p)] := dictInsert_of_not_contains hcc p
      rcases phashStep_cases m t (shaStep m st p c) p c with
        ⟨hphc, he2⟩ | ⟨ph, key, hphc, hf, he2⟩ | ⟨ph, hphc, hf, he2⟩
      · rw [he2, he]
        refine ⟨?_, hdisj, ?_, ?_, hsim⟩
        · intro kv hkv
          dsimp only at hkv
          rw [hIns] at hkv
          rcases List.mem_append.mp hkv with hm | hm
          · exact hcov kv hm
          · rw [List.mem_singleton] at hm
            subst hm
            refine ⟨c, hfs, rfl, ?_⟩
            intro ph0 hph0
            rw [hphc] at hph0
            cases hph0
        · intro q hq
          exact List.mem_cons_of_mem _ (hdupP q hq)
        · intro q hq
          exact List.mem_cons_of_mem _ (hcanP q hq)
      · rw [he2, he]
        have hkeymem : key ∈ dictKeys st.phash_map := by
          have := (findFirstMatch_some_mem hf).2
          rw [he] at this
          exact this
        have hkeyle : m.hamming ph key ≤ t := (findFirstMatch_some_mem hf).1
        refine ⟨?_, hdisj, ?_, ?_, ?_⟩
        · intro kv hkv
          dsimp only at hkv
          rw [hIns] at hkv
          rcases List.mem_append.mp hkv with hm | hm
          · exact hcov kv hm
          · rw [List.mem_singleton] at hm
            subst hm
            refine ⟨c, hfs, rfl, ?_⟩
            intro ph0 hph0
            rw [hphc] at hph0
            injection hph0 with hph0'
            subst hph0'
            exact ⟨key, hkeymem, hkeyle⟩
        · intro q hq
          exact List.mem_cons_of_mem _ (hdupP q hq)
        · intro q hq
          exact List.mem_cons_of_mem _ (hcanP q hq)
        · intro q hq c' ph' hfs' hph'
          exact ddElems_append_iff.mpr (Or.inl (hsim q hq c' ph' hfs' hph'))
      · rw [he2, he]
        refine ⟨?_, ?_, ?_, ?_, hsim⟩
        · intro kv hkv
          dsimp only at hkv
          rw [hIns] at hkv
          rcases List.mem_append.mp hkv with hm | hm
          · obtain ⟨c0', hfs0', hsha0', hcov0'⟩ := hcov kv hm
            refine ⟨c0', hfs0', hsha0', ?_⟩
            intro ph0 hph0
            obtain ⟨k, hk, hle⟩ := hcov0' ph0 hph0
            exact ⟨k, dictKeys_insert_iff.mpr (Or.inl hk), hle⟩
          · rw [List.mem_singleton] at hm
            subst hm
            refine ⟨c, hfs, rfl, ?_⟩
            intro ph0 hph0
            rw [hphc] at hph0
            injection hph0 with hph0'
            subst hph0'
            refine ⟨ph, dictKeys_insert_iff.mpr (Or.inr rfl), ?_⟩
            rw [hzero]
            exact Nat.zero_le t
        · intro q hq hmem
          dsimp only at hq
          rcases dictValues_insert_sub hq with hm | rfl
          · exact hdisj q hm hmem
          · exact hp (hdupP q hmem)
        · intro q hq
          exact List.mem_cons_of_mem _ (hdupP q hq)
        · intro q hq
          dsimp only at hq
          rcases dictValues_insert_sub hq with hm | rfl
          · exact List.mem_cons_of_mem _ (hcanP q hm)
          · exact List.mem_cons_self _ _

theorem check_preserves_noNewKeyInv {m : HashModel} {t : Nat}
    {fs : FilePath → Option Content}
    (hsp : ∀ c c', m.sha c = m.sha c' → m.phash c = m.phash c')
    (hzero : ∀ x, m.hamming x x = 0) :
    ∀ (files processed : List FilePath) (st st' : DCState),
      (∀ q ∈ files, q ∉ processed) → files.Nodup →
      noNewKeyInv m t fs processed st →
      check_duplicates m t fs st files = some st' →
      ∃ processed', noNewKeyInv m t fs processed' st' := by
  intro files
  induction files with
  | nil =>
    intro processed st st' _ _ hinv h
    simp only [check_duplicates, Option.some.injEq] at h
    subst h
    exact ⟨processed, hinv⟩
  | cons p rest ih =>
    intro processed st st' hdis hnd hinv h
    simp only [check_duplicates] at h
    cases hpf : processFile m t fs st p with
    | none => simp [hpf] at h
    | some st1 =>
      simp only [hpf] at h
      have hfresh : p ∉ processed := hdis p (List.mem_cons_self _ _)
      have hnd' := List.nodup_cons.mp hnd
      refine ih (p :: processed) st1 st' ?_ hnd'.2
        (noNewKeyInv_step hfresh hsp hzero hinv hpf) h
      intro q hq hmem
      rcases List.mem_cons.mp hmem with rfl | hm
      · exact hnd'.1 hq
      · exact hdis q (List.mem_cons_of_mem _ hq) hm

/-- C1 amended: over distinct input paths (with digest-determined
fingerprints and zero self-distance), a file recorded as an exact
duplicate never becomes the key (original) of a similarity group — but
perceptual comparison is still attempted for it, and whenever its
fingerprint computes, it lands in some similarity group's member list. -/
theorem c1_amended (m : HashModel) (t : Nat)
    (fs : FilePath → Option Content) (files : List FilePath) (st' : DCState)
    (hnd : files.Nodup)
    (hsp : ∀ c c', m.sha c = m.sha c' → m.phash c = m.phash c')
    (hzero : ∀ x, m.hamming x x = 0)
    (h : check_duplicates m t fs DCState.empty files = some st') :
    ∀ p ∈ dupPaths st', p ∉ phashCanonicals st'
      ∧ ∀ c ph, fs p = some c → m.phash c = some ph →
          p ∈ similarMembers st' := by
  have hbase : noNewKeyInv m t fs [] DCState.empty := by
    refine ⟨?_, ?_, ?_, ?_, ?_⟩ <;> intro x hx <;>
      simp [DCState.empty, keyCoverage, dictValues, ddElems] at hx
  obtain ⟨processed, hcov, hdisj, hdupP, hcanP, hsim⟩ :=
    check_preserves_noNewKeyInv hsp hzero files [] DCState.empty st'
      (by simp) hnd hbase h
  intro p hp
  constructor
  · intro hmem
    exact hdisj p hmem hp
  · intro c ph hfs hph
    exact hsim p hp c ph hfs hph

/-- Witness for C1: in the concrete two-identical-file scan, the exact
duplicate `pB` is not a similarity-group key but is a similarity-group
member. -/
theorem c1_witness :
    pB ∉ phashCanonicals stC1 ∧ pB ∈ similarMembers stC1 := by
  have happ := c1_amended mTest 10 fsSame [pA, pB] stC1 (by decide)
    (fun c c' h => congrArg Option.some h)
    (fun x => by simp [mTest, hamTest]) (by decide) pB (by decide)
  exact ⟨happ.1, happ.2 1 "1" (by decide) (by decide)⟩
